import Mathlib

/-!
Shallow embedding of the `WGKthesecond/av` stock service.

The repository has two variants of `server.js`:
* the combined variant (`src/server.js`): the ledger is an array of
  `{name, price, record}` objects, where `record` maps the 7 weekday keys
  to accumulators;
* the legacy variant (`src/unnamed/part_000`, `part_001`): the ledger is a
  plain object mapping stock name to price.

JavaScript numbers are modelled by `ℚ` (the handlers only ever compute
`+`, `-`, `max` on finite values in the claims under study).  A value that
may be a non-number is modelled by `Option ℚ` (`none` = any non-numeric
JS value).  A JS object used as a string-keyed map is modelled by an
association list with first-match lookup, in-place update of the first
matching key, and append for fresh keys — exactly the observable behaviour
of JS property access on the objects this program builds.
-/

set_option linter.unusedVariables false

namespace AV

/-- `DAY_KEYS` from `server.js` (indexed by `getUTCDay()`, 0 = SUN). -/
def DAY_KEYS : List String := ["SUN", "MON", "TUES", "WED", "THURS", "FRI", "SAT"]

/-- A record entry value: `some q` is a JS number, `none` any non-number. -/
abbrev RVal := Option ℚ

/-- A stock's `record` object: string-keyed association list. -/
abbrev Rec := List (String × RVal)

/-- JS property read `r[k]`: first entry with key `k` (`none` = absent). -/
def Rec.get : Rec → String → Option RVal
  | [], _ => none
  | (k', v') :: rest, k => if k' = k then some v' else Rec.get rest k

/-- JS property write `r[k] = v`: overwrite the first entry with key `k`,
append if the key is absent. -/
def Rec.set : Rec → String → RVal → Rec
  | [], k, v => [(k, v)]
  | (k', v') :: rest, k, v =>
      if k' = k then (k', v) :: rest else (k', v') :: Rec.set rest k v

/-- The `base` object of `ensureRecord` / the record of a fresh stock
(key order as written in `server.js`). -/
def baseRecord : Rec :=
  [("MON", some 0), ("TUES", some 0), ("WED", some 0), ("THURS", some 0),
   ("FRI", some 0), ("SAT", some 0), ("SUN", some 0)]

/-- `Object.keys(base)` in `ensureRecord`. -/
def baseKeys : List String := ["MON", "TUES", "WED", "THURS", "FRI", "SAT", "SUN"]

/-- One iteration of the `ensureRecord` loop:
`if (typeof rec[k] !== 'number') rec[k] = 0`. -/
def repairKey (r : Rec) (k : String) : Rec :=
  match Rec.get r k with
  | some (some _) => r
  | _ => Rec.set r k (some 0)

/-- `ensureRecord(rec)` from `server.js`: a non-object argument is replaced
by the base record; otherwise every base key that is not a number is set
to 0 (keys outside the 7 base keys are left untouched). -/
def ensureRecord : Option Rec → Rec
  | none => baseRecord
  | some r => baseKeys.foldl repairKey r

/-- Numeric read of `r[k]` (only used where the code has already
guaranteed the entry is a number; defaults to 0 otherwise). -/
def recNum (r : Rec) (k : String) : ℚ :=
  match Rec.get r k with
  | some (some q) => q
  | _ => 0

/-- A stock entry of the combined variant.  `price = some q` is a numeric
price, `none` any non-numeric value; `record = some r` is an object,
`none` any non-object value. -/
structure Stock where
  name : String
  price : Option ℚ
  record : Option Rec
deriving DecidableEq, Repr

/-- `typeof stock.price === 'number' ? stock.price : 100` — the base price
used by the `buy`/`sell` cases (and by `ensureStock`'s price repair). -/
def basePrice (s : Stock) : ℚ :=
  match s.price with
  | some p => p
  | none => 100

/-- `stocks.find(s => s.name === name)`. -/
def findStock : List Stock → String → Option Stock
  | [], _ => none
  | s :: rest, n => if s.name = n then some s else findStock rest n

/-- In-place mutation of the stock found by `findStock`: replace the first
entry whose name is `n`. -/
def replaceFirst : List Stock → String → Stock → List Stock
  | [], _, _ => []
  | s :: rest, n, s2 =>
      if s.name = n then s2 :: rest else s :: replaceFirst rest n s2

/-- `ensureStock(name)` from `server.js`: returns the (created or repaired)
stock together with the updated ledger. -/
def ensureStock (stocks : List Stock) (n : String) : Stock × List Stock :=
  match findStock stocks n with
  | none =>
      let stock : Stock := ⟨n, some 100, some baseRecord⟩
      (stock, stocks ++ [stock])
  | some s =>
      let s2 : Stock := ⟨s.name, some (basePrice s), some (ensureRecord s.record)⟩
      (s2, replaceFirst stocks n s2)

/-- The record of the stock produced by `ensureStock` (spelled out for use
in specifications). -/
def ensuredRec (stocks : List Stock) (n : String) : Rec :=
  match findStock stocks n with
  | none => baseRecord
  | some s => ensureRecord s.record

/-- HTTP responses of `app.post('/')` in the combined variant. -/
inductive Resp where
  | ok (name : String) (price : Option ℚ) (record : Rec) : Resp
  | badKey : Resp
  | missingName : Resp
  | badAction : Resp
deriving DecidableEq, Repr

/-- The HTTP status of a `Resp`. -/
def Resp.status : Resp → Nat
  | .ok _ _ _ => 200
  | .badKey => 403
  | .missingName => 400
  | .badAction => 400

/-- Result of one `POST /` request in the combined variant: response,
resulting in-memory ledger, and whether `save()` was called. -/
structure Outcome where
  resp : Resp
  stocks : List Stock
  saved : Bool
deriving DecidableEq, Repr

/-- The body of `app.post('/')` after the auth and name checks
(combined variant), with `dayKey = getTodayKey()` passed in as a
parameter.  The `switch (action)` is rendered as an if-chain. -/
def trade (dayKey : String) (action : Option String) (n : String)
    (amount : ℚ) (stocks : List Stock) : Outcome :=
  let es := ensureStock stocks n
  let stock := es.1
  let stocks1 := es.2
  let r1 := repairKey (stock.record.getD baseRecord) dayKey
  let stock1 : Stock := ⟨stock.name, stock.price, some r1⟩
  let stocks2 := replaceFirst stocks1 n stock1
  if action = some "get" then
    ⟨Resp.ok stock1.name stock1.price r1, stocks2, false⟩
  else if action = some "buy" then
    let v := recNum r1 dayKey
    let r2 := Rec.set r1 dayKey (some (v + amount))
    let stock2 : Stock := ⟨stock1.name, some (basePrice stock1 + amount), some r2⟩
    ⟨Resp.ok stock2.name stock2.price r2, replaceFirst stocks2 n stock2, true⟩
  else if action = some "sell" then
    let v := recNum r1 dayKey
    let q := max ((1 : ℚ)/100) (basePrice stock1 - amount)
    let r2 := Rec.set r1 dayKey (some (max 0 (v - amount)))
    let stock2 : Stock := ⟨stock1.name, some q, some r2⟩
    ⟨Resp.ok stock2.name stock2.price r2, replaceFirst stocks2 n stock2, true⟩
  else
    ⟨Resp.badAction, stocks2, false⟩

/-- `app.post('/')` of the combined variant.
`key` is the `x-dealer-key` header (`none` = absent), `secret` the
`DEALER_KEY` environment variable (`none` = unset); the auth check is the
JS strict comparison of the two.  `name` is the second body element
(`none` = missing or non-string), `amountParsed` the `parseFloat` result
of the third (`none` = `NaN`, so the `|| 0` fallback applies). -/
def handlePost (secret : Option String) (dayKey : String)
    (key action name : Option String) (amountParsed : Option ℚ)
    (stocks : List Stock) : Outcome :=
  if key ≠ secret then ⟨Resp.badKey, stocks, false⟩
  else
    let amount := amountParsed.getD 0
    match name with
    | none => ⟨Resp.missingName, stocks, false⟩
    | some n =>
        if n = "" then ⟨Resp.missingName, stocks, false⟩
        else trade dayKey action n amount stocks

/-- The price against which the spec's "prior price" is compared in the
combined variant: the stored numeric price, or 100 when the stock is
absent or its price non-numeric. -/
def priorBase (stocks : List Stock) (n : String) : ℚ :=
  match findStock stocks n with
  | some s => basePrice s
  | none => 100

/-- The numeric value of `record[dayKey]` before the request (0 when the
stock or entry is absent or the entry non-numeric). -/
def priorToday (stocks : List Stock) (n k : String) : ℚ :=
  match findStock stocks n with
  | none => 0
  | some s =>
      match s.record with
      | none => 0
      | some r => recNum r k

/-- Decidable form of "the entry at `k` is a JS number". -/
def numericAtB (r : Rec) (k : String) : Bool :=
  match Rec.get r k with
  | some (some _) => true
  | _ => false

/-- The record invariant claimed by the spec: all 7 weekday keys map to
numbers. -/
def wellFormedRecB (r : Rec) : Bool :=
  baseKeys.all (fun k => numericAtB r k)

/-- "the entry at `k` is a JS number", as a proposition. -/
def numericAt (r : Rec) (k : String) : Prop :=
  ∃ q, Rec.get r k = some (some q)

/-- Decidable form of the spec's price invariant over a ledger: every
stock has a numeric price of at least 0.01. -/
def priceOKb (stocks : List Stock) : Bool :=
  stocks.all (fun s =>
    match s.price with
    | some p => decide ((1 : ℚ)/100 ≤ p)
    | none => false)

/-- One `POST /` request of the combined variant, as replayed ledger
history (the day key may differ between requests). -/
structure RootReq where
  dayKey : String
  key : Option String
  action : Option String
  name : Option String
  amountParsed : Option ℚ
deriving DecidableEq, Repr

/-- Replay a sequence of `POST /` requests against the in-memory ledger. -/
def applyAll (secret : Option String) (stocks : List Stock) :
    List RootReq → List Stock
  | [] => stocks
  | r :: rs =>
      applyAll secret
        (handlePost secret r.dayKey r.key r.action r.name r.amountParsed stocks).stocks rs

/-- Every `buy` request in the history has a non-negative parsed amount
(the hypothesis under which the price floor is an invariant). -/
def buyAmountsOK (rs : List RootReq) : Bool :=
  rs.all (fun r =>
    if r.action = some "buy" then decide ((0 : ℚ) ≤ r.amountParsed.getD 0) else true)

/-! ## Legacy variant (`src/unnamed/part_000`, `part_001`)

The ledger is a plain JS object mapping stock name to price.  The handler
is embedded on its numeric fragment: ledger values are `ℚ` (these are the
only values the handler itself ever writes; JS truthiness of a finite
number is `≠ 0`). -/

/-- The legacy ledger: name → price. -/
abbrev LLedger := List (String × ℚ)

/-- JS property read `stocks[name]`. -/
def lookupL : LLedger → String → Option ℚ
  | [], _ => none
  | (k', v') :: rest, k => if k' = k then some v' else lookupL rest k

/-- JS property write `stocks[name] = v`. -/
def setL : LLedger → String → ℚ → LLedger
  | [], k, v => [(k, v)]
  | (k', v') :: rest, k, v =>
      if k' = k then (k', v) :: rest else (k', v') :: setL rest k v

/-- `(stocks[name] || 100)` of the legacy `buy`/`sell` cases: the stored
price unless it is absent or falsy (0). -/
def legacyBase (stocks : LLedger) (n : String) : ℚ :=
  match lookupL stocks n with
  | some q => if q = 0 then 100 else q
  | none => 100

/-- Responses of the legacy `app.post('/')`. -/
inductive LResp where
  | price (q : ℚ) : LResp
  | badKey : LResp
  | badAction : LResp
deriving DecidableEq, Repr

/-- Result of one legacy `POST /` request. -/
structure LOutcome where
  resp : LResp
  stocks : LLedger
  saved : Bool
deriving DecidableEq, Repr

/-- Legacy `app.post('/')`.  There is no name validation in this variant;
`name` is whatever key the destructured body yields. -/
def handleLegacy (secret key action : Option String) (name : String)
    (amountParsed : Option ℚ) (stocks : LLedger) : LOutcome :=
  if key ≠ secret then ⟨LResp.badKey, stocks, false⟩
  else
    let price := amountParsed.getD 0
    if action = some "get" then
      match lookupL stocks name with
      | some q =>
          if q = 0 then ⟨LResp.price 100, setL stocks name 100, true⟩
          else ⟨LResp.price q, stocks, false⟩
      | none => ⟨LResp.price 100, setL stocks name 100, true⟩
    else if action = some "buy" then
      let newp := legacyBase stocks name + price
      ⟨LResp.price newp, setL stocks name newp, true⟩
    else if action = some "sell" then
      let newp := max ((1 : ℚ)/100) (legacyBase stocks name - price)
      ⟨LResp.price newp, setL stocks name newp, true⟩
    else ⟨LResp.badAction, stocks, false⟩

/-! ## `load()` -/

/-- JSON documents, for the shape analysis done by `load()`. -/
inductive Json where
  | jnull : Json
  | jbool (b : Bool) : Json
  | jnum (q : ℚ) : Json
  | jstr (s : String) : Json
  | jarr (xs : List Json) : Json
  | jobj (kvs : List (String × Json)) : Json

/-- `load()` of the combined variant.  The argument is the read/parse
result (`none` = missing file or malformed JSON, which the `catch`
swallows).  `stocks = Array.isArray(parsed) ? parsed : []`, and the catch
branch assigns `[]`. -/
def loadCombined : Option Json → List Json
  | none => []
  | some (Json.jarr xs) => xs
  | some _ => []

/-- `load()` of the legacy variant: `stocks = JSON.parse(...)` inside a
`try` whose `catch` is empty, so a read/parse failure leaves the previous
value and a successful parse is assigned unconditionally (no shape
check). -/
def loadLegacy (prev : Json) : Option Json → Json
  | none => prev
  | some j => j

/-! ## `/report` (combined variant only) -/

/-- The destructured `/report` body.  String fields are `none` when
absent or falsy; `am` is `some true` exactly when `am === true`. -/
structure ReportBody where
  clientName : Option String
  reportedPlayerName : Option String
  reason : Option String
  am : Option Bool
  serverId : Option String
deriving DecidableEq, Repr

/-- One embed field of the Discord payload. -/
structure EmbedField where
  name : String
  value : String
  isInline : Bool
deriving DecidableEq, Repr

/-- One embed of the Discord payload. -/
structure Embed where
  title : String
  color : Nat
  fields : List EmbedField
deriving DecidableEq, Repr

/-- The webhook payload. -/
structure Payload where
  content : String
  embeds : List Embed
deriving DecidableEq, Repr

/-- Responses of `app.post('/report')`. -/
inductive ReportResp where
  | notConfigured : ReportResp
  | missingFields : ReportResp
  | webhookFailed (status : Nat) : ReportResp
  | ok : ReportResp
deriving DecidableEq, Repr

/-- The HTTP status of a `ReportResp`. -/
def ReportResp.status : ReportResp → Nat
  | .notConfigured => 500
  | .missingFields => 400
  | .webhookFailed _ => 500
  | .ok => 200

/-- Result of one `/report` request: response and the webhook POSTs made. -/
structure ReportOutcome where
  resp : ReportResp
  webhookCalls : List Payload
deriving DecidableEq, Repr

/-- JS falsiness of an optional string. -/
def falsyStr : Option String → Bool
  | none => true
  | some s => s = ""

/-- `app.post('/report')`.  `url` is `REPORT_WEBHOOK_URL` (`none` = unset),
`fetchOk`/`fetchStatus` the outcome of the webhook `fetch` (only consulted
when a call is actually made). -/
def handleReport (url : Option String) (b : ReportBody)
    (fetchOk : Bool) (fetchStatus : Nat) : ReportOutcome :=
  if falsyStr url then ⟨ReportResp.notConfigured, []⟩
  else if falsyStr b.clientName || falsyStr b.reportedPlayerName then
    ⟨ReportResp.missingFields, []⟩
  else
    let safeReason :=
      match b.reason with
      | some s => if s.trim = "" then "No reason provided" else s.trim
      | none => "No reason provided"
    let safeServer :=
      match b.serverId with
      | some s => if s = "" then "Unknown" else s
      | none => "Unknown"
    let clientStr := (b.clientName).getD ""
    let reported := (b.reportedPlayerName).getD ""
    let fields0 : List EmbedField :=
      [⟨"Reason", safeReason, true⟩,
       ⟨"Reported By", clientStr, true⟩,
       ⟨"Server ID", safeServer, true⟩]
    let fields :=
      if b.am = some true then
        fields0 ++ [⟨"Other", "Auto mod can make mistakes.", true⟩]
      else fields0
    let payload : Payload :=
      ⟨"Player Report Received: <@&1429477002435629127>",
       [⟨"Player Reported: " ++ reported, 16529667, fields⟩]⟩
    if fetchOk then ⟨ReportResp.ok, [payload]⟩
    else ⟨ReportResp.webhookFailed fetchStatus, [payload]⟩

/-! ## Whole-server step (combined variant) -/

/-- An inbound HTTP request to the combined-variant server. -/
inductive Request where
  | getStocks : Request
  | postRoot (key action name : Option String) (amountParsed : Option ℚ) : Request
  | postReport (b : ReportBody) (fetchOk : Bool) (fetchStatus : Nat) : Request

/-- The server's mutable state: the in-memory `stocks` array. -/
structure ServerState where
  stocks : List Stock
deriving DecidableEq, Repr

/-- Externally visible result of handling one request: new state, whether
`save()` wrote the data file, whether `commitAndPush()` was triggered, and
the webhook POSTs made. -/
structure StepResult where
  state : ServerState
  saved : Bool
  gitPushed : Bool
  webhookCalls : List Payload
deriving DecidableEq, Repr

/-- One request/response cycle of the combined-variant server.
`commitAndPush()` is invoked exactly where `save()` is. -/
def serverStep (secret url : Option String) (dayKey : String)
    (st : ServerState) : Request → StepResult
  | Request.getStocks => ⟨st, false, false, []⟩
  | Request.postRoot key action name amt =>
      let o := handlePost secret dayKey key action name amt st.stocks
      ⟨⟨o.stocks⟩, o.saved, o.saved, []⟩
  | Request.postReport b fetchOk fetchStatus =>
      let r := handleReport url b fetchOk fetchStatus
      ⟨st, false, false, r.webhookCalls⟩

unseal Rat.add Rat.sub Rat.mul Rat.inv

/-! ## Association-list lemmas -/

theorem Rec.get_set_self (r : Rec) (k : String) (v : RVal) :
    Rec.get (Rec.set r k v) k = some v := by
  induction r with
  | nil => simp [Rec.set, Rec.get]
  | cons p rest ih =>
      obtain ⟨k0, v0⟩ := p
      by_cases h : k0 = k
      · simp [Rec.set, Rec.get, h]
      · simp [Rec.set, Rec.get, h, ih]

theorem Rec.get_set_ne (r : Rec) (k k' : String) (v : RVal) (h : k' ≠ k) :
    Rec.get (Rec.set r k v) k' = Rec.get r k' := by
  induction r with
  | nil =>
      simp only [Rec.set, Rec.get]
      rw [if_neg (fun hh => h hh.symm)]
  | cons p rest ih =>
      obtain ⟨k0, v0⟩ := p
      by_cases hk : k0 = k
      · subst hk
        simp only [Rec.set, if_pos rfl, Rec.get]
        rw [if_neg (fun hh => h hh.symm), if_neg (fun hh => h hh.symm)]
      · simp only [Rec.set, if_neg hk, Rec.get]
        by_cases hk' : k0 = k'
        · rw [if_pos hk', if_pos hk']
        · rw [if_neg hk', if_neg hk', ih]

theorem Rec.set_id (r : Rec) (k : String) (v : RVal) (h : Rec.get r k = some v) :
    Rec.set r k v = r := by
  induction r with
  | nil => simp [Rec.get] at h
  | cons p rest ih =>
      obtain ⟨k0, v0⟩ := p
      by_cases hk : k0 = k
      · simp only [Rec.get, if_pos hk, Option.some.injEq] at h
        simp [Rec.set, hk, h]
      · simp only [Rec.get, if_neg hk] at h
        simp [Rec.set, hk, ih h]

theorem repairKey_get_self (r : Rec) (k : String) :
    Rec.get (repairKey r k) k = some (some (recNum r k)) := by
  rcases h : Rec.get r k with _ | (_ | q) <;>
    simp [repairKey, recNum, h, Rec.get_set_self]

theorem repairKey_get_ne (r : Rec) (k k' : String) (h : k' ≠ k) :
    Rec.get (repairKey r k) k' = Rec.get r k' := by
  rcases hg : Rec.get r k with _ | (_ | q) <;>
    simp [repairKey, hg, Rec.get_set_ne r k k' _ h]

theorem repairKey_id (r : Rec) (k : String) (h : numericAt r k) : repairKey r k = r := by
  obtain ⟨q, hq⟩ := h
  simp [repairKey, hq]

theorem numericAt_repairKey_self (r : Rec) (k : String) : numericAt (repairKey r k) k :=
  ⟨recNum r k, repairKey_get_self r k⟩

theorem numericAt_repairKey (r : Rec) (k k' : String) (h : numericAt r k') :
    numericAt (repairKey r k) k' := by
  by_cases hk : k' = k
  · subst hk; exact numericAt_repairKey_self r k'
  · obtain ⟨q, hq⟩ := h
    exact ⟨q, by rw [repairKey_get_ne r k k' hk]; exact hq⟩

theorem numericAt_set (r : Rec) (k k' : String) (x : ℚ) (h : numericAt r k') :
    numericAt (Rec.set r k (some x)) k' := by
  by_cases hk : k' = k
  · subst hk; exact ⟨x, Rec.get_set_self r k' (some x)⟩
  · obtain ⟨q, hq⟩ := h
    exact ⟨q, by rw [Rec.get_set_ne r k k' _ hk]; exact hq⟩

theorem recNum_eq_of_get_eq {r1 r2 : Rec} {k : String}
    (h : Rec.get r1 k = Rec.get r2 k) : recNum r1 k = recNum r2 k := by
  unfold recNum
  rw [h]

theorem recNum_repairKey_self (r : Rec) (k : String) :
    recNum (repairKey r k) k = recNum r k := by
  unfold recNum
  rw [repairKey_get_self]
  rfl

theorem get_eq_recNum {r : Rec} {k : String} (h : numericAt r k) :
    Rec.get r k = some (some (recNum r k)) := by
  obtain ⟨q, hq⟩ := h
  unfold recNum
  rw [hq]

theorem foldl_repair_numericAt (L : List String) (r : Rec) (k : String)
    (h : numericAt r k) : numericAt (L.foldl repairKey r) k := by
  induction L generalizing r with
  | nil => exact h
  | cons a L ih => exact ih _ (numericAt_repairKey r a k h)

theorem foldl_repair_numericAt_mem (L : List String) (r : Rec) (k : String)
    (h : k ∈ L) : numericAt (L.foldl repairKey r) k := by
  induction L generalizing r with
  | nil => cases h
  | cons a L ih =>
      rcases List.mem_cons.mp h with rfl | h'
      · exact foldl_repair_numericAt L _ k (numericAt_repairKey_self r k)
      · exact ih _ h'

theorem foldl_repair_preserve (L : List String) (r : Rec) (k : String) (q : ℚ)
    (h : Rec.get r k = some (some q)) :
    Rec.get (L.foldl repairKey r) k = some (some q) := by
  induction L generalizing r with
  | nil => exact h
  | cons a L ih =>
      apply ih
      by_cases hk : k = a
      · subst hk
        rw [repairKey_id r k ⟨q, h⟩]
        exact h
      · rw [repairKey_get_ne r a k hk]
        exact h

theorem foldl_repair_not_mem (L : List String) (r : Rec) (k : String) (h : k ∉ L) :
    Rec.get (L.foldl repairKey r) k = Rec.get r k := by
  induction L generalizing r with
  | nil => rfl
  | cons a L ih =>
      have hk : k ≠ a := fun hh => h (hh ▸ List.mem_cons_self a L)
      rw [List.foldl_cons, ih _ (fun hm => h (List.mem_cons_of_mem a hm)),
        repairKey_get_ne r a k hk]

theorem foldl_repair_get_mem (L : List String) (r : Rec) (k : String) (h : k ∈ L) :
    Rec.get (L.foldl repairKey r) k = some (some (recNum r k)) := by
  induction L generalizing r with
  | nil => cases h
  | cons a L ih =>
      by_cases hk : k = a
      · subst hk
        rw [List.foldl_cons]
        exact foldl_repair_preserve L _ k _ (repairKey_get_self r k)
      · rcases List.mem_cons.mp h with h1 | h2
        · exact absurd h1 hk
        · rw [List.foldl_cons, ih (repairKey r a) h2,
            recNum_eq_of_get_eq (repairKey_get_ne r a k hk)]

theorem foldl_repair_id (L : List String) (r : Rec) (h : ∀ k ∈ L, numericAt r k) :
    L.foldl repairKey r = r := by
  induction L with
  | nil => rfl
  | cons a L ih =>
      rw [List.foldl_cons, repairKey_id r a (h a (List.mem_cons_self a L))]
      exact ih (fun k hk => h k (List.mem_cons_of_mem a hk))

/-! ## `ensureRecord` and base-record lemmas -/

theorem ensureRecord_get_mem (r : Rec) (k : String) (h : k ∈ baseKeys) :
    Rec.get (ensureRecord (some r)) k = some (some (recNum r k)) :=
  foldl_repair_get_mem baseKeys r k h

theorem ensureRecord_get_not_mem (r : Rec) (k : String) (h : k ∉ baseKeys) :
    Rec.get (ensureRecord (some r)) k = Rec.get r k :=
  foldl_repair_not_mem baseKeys r k h

theorem ensureRecord_id (r : Rec) (h : ∀ k ∈ baseKeys, numericAt r k) :
    ensureRecord (some r) = r :=
  foldl_repair_id baseKeys r h

theorem recNum_base (k : String) : recNum baseRecord k = 0 := by
  unfold recNum
  have h : Rec.get baseRecord k = some (some 0) ∨ Rec.get baseRecord k = none := by
    simp only [baseRecord, Rec.get]
    split_ifs <;> simp
  rcases h with h | h <;> rw [h]

theorem numericAt_base_of_mem {k : String} (h : k ∈ baseKeys) :
    numericAt baseRecord k := by
  fin_cases h <;> exact ⟨0, rfl⟩

theorem ensureRecord_numericAt (orec : Option Rec) (k : String) (h : k ∈ baseKeys) :
    numericAt (ensureRecord orec) k := by
  cases orec with
  | none => exact numericAt_base_of_mem h
  | some r => exact ⟨recNum r k, ensureRecord_get_mem r k h⟩

theorem day_mem_base {k : String} (h : k ∈ DAY_KEYS) : k ∈ baseKeys := by
  fin_cases h <;> simp [baseKeys]

theorem numericAtB_iff (r : Rec) (k : String) : numericAtB r k = true ↔ numericAt r k := by
  unfold numericAtB numericAt
  rcases h : Rec.get r k with _ | (_ | q) <;> simp [h]

theorem wellFormedRecB_iff (r : Rec) :
    wellFormedRecB r = true ↔ ∀ k ∈ baseKeys, numericAt r k := by
  unfold wellFormedRecB
  rw [List.all_eq_true]
  constructor
  · intro h k hk
    exact (numericAtB_iff r k).mp (h k hk)
  · intro h k hk
    exact (numericAtB_iff r k).mpr (h k hk)

/-! ## `findStock` / `replaceFirst` lemmas -/

theorem findStock_name {l : List Stock} {n : String} {s : Stock}
    (h : findStock l n = some s) : s.name = n := by
  induction l with
  | nil => cases h
  | cons a l ih =>
      by_cases ha : a.name = n
      · simp only [findStock, if_pos ha, Option.some.injEq] at h
        rw [← h]
        exact ha
      · simp only [findStock, if_neg ha] at h
        exact ih h

theorem findStock_mem {l : List Stock} {n : String} {s : Stock}
    (h : findStock l n = some s) : s ∈ l := by
  induction l with
  | nil => cases h
  | cons a l ih =>
      by_cases ha : a.name = n
      · simp only [findStock, if_pos ha, Option.some.injEq] at h
        rw [← h]
        exact List.mem_cons_self a l
      · simp only [findStock, if_neg ha] at h
        exact List.mem_cons_of_mem a (ih h)

theorem findStock_append_none {l : List Stock} {n : String}
    (h : findStock l n = none) (l2 : List Stock) :
    findStock (l ++ l2) n = findStock l2 n := by
  induction l with
  | nil => rfl
  | cons a l ih =>
      by_cases ha : a.name = n
      · simp only [findStock, if_pos ha] at h
        exact Option.noConfusion h
      · simp only [findStock, if_neg ha] at h
        simp only [List.cons_append, findStock, if_neg ha]
        exact ih h

theorem findStock_replaceFirst {l : List Stock} {n : String} {s s2 : Stock}
    (h : findStock l n = some s) (h2 : s2.name = n) :
    findStock (replaceFirst l n s2) n = some s2 := by
  induction l with
  | nil => cases h
  | cons a l ih =>
      by_cases ha : a.name = n
      · simp only [replaceFirst, if_pos ha, findStock, if_pos h2]
      · simp only [findStock, if_neg ha] at h
        simp only [replaceFirst, if_neg ha, findStock, if_neg ha]
        exact ih h

theorem replaceFirst_self {l : List Stock} {n : String} {s : Stock}
    (h : findStock l n = some s) : replaceFirst l n s = l := by
  induction l with
  | nil => rfl
  | cons a l ih =>
      by_cases ha : a.name = n
      · simp only [findStock, if_pos ha, Option.some.injEq] at h
        subst h
        simp [replaceFirst, ha]
      · simp only [findStock, if_neg ha] at h
        simp [replaceFirst, ha, ih h]

theorem replaceFirst_append_of_none {l : List Stock} {n : String}
    (h : findStock l n = none) (l2 : List Stock) (s2 : Stock) :
    replaceFirst (l ++ l2) n s2 = l ++ replaceFirst l2 n s2 := by
  induction l with
  | nil => rfl
  | cons a l ih =>
      by_cases ha : a.name = n
      · simp only [findStock, if_pos ha] at h
        exact Option.noConfusion h
      · simp only [findStock, if_neg ha] at h
        simp [replaceFirst, ha, ih h]

theorem mem_replaceFirst {l : List Stock} {n : String} {s2 x : Stock}
    (h : x ∈ replaceFirst l n s2) : x ∈ l ∨ x = s2 := by
  induction l with
  | nil => cases h
  | cons a l ih =>
      by_cases ha : a.name = n
      · simp only [replaceFirst, if_pos ha] at h
        rcases List.mem_cons.mp h with rfl | h2
        · exact Or.inr rfl
        · exact Or.inl (List.mem_cons_of_mem a h2)
      · simp only [replaceFirst, if_neg ha] at h
        rcases List.mem_cons.mp h with rfl | h2
        · exact Or.inl (List.mem_cons_self x l)
        · rcases ih h2 with h3 | h3
          · exact Or.inl (List.mem_cons_of_mem a h3)
          · exact Or.inr h3

/-! ## Legacy map lemmas -/

theorem lookupL_setL_self (m : LLedger) (k : String) (v : ℚ) :
    lookupL (setL m k v) k = some v := by
  induction m with
  | nil => simp [setL, lookupL]
  | cons p rest ih =>
      obtain ⟨k0, v0⟩ := p
      by_cases h : k0 = k
      · simp [setL, lookupL, h]
      · simp [setL, lookupL, h, ih]

theorem setL_id (m : LLedger) (k : String) (v : ℚ) (h : lookupL m k = some v) :
    setL m k v = m := by
  induction m with
  | nil => simp [lookupL] at h
  | cons p rest ih =>
      obtain ⟨k0, v0⟩ := p
      by_cases hk : k0 = k
      · simp only [lookupL, if_pos hk, Option.some.injEq] at h
        simp [setL, hk, h]
      · simp only [lookupL, if_neg hk] at h
        simp [setL, hk, ih h]

/-! ## `ensureStock` lemmas -/

theorem ensureStock_fst_name (stocks : List Stock) (n : String) :
    (ensureStock stocks n).1.name = n := by
  rcases h : findStock stocks n with _ | s
  · simp [ensureStock, h]
  · simp only [ensureStock, h]
    exact findStock_name h

theorem ensureStock_fst_price (stocks : List Stock) (n : String) :
    (ensureStock stocks n).1.price = some (priorBase stocks n) := by
  unfold ensureStock priorBase
  rcases h : findStock stocks n with _ | s <;> simp [basePrice]

theorem ensureStock_fst_record (stocks : List Stock) (n : String) :
    (ensureStock stocks n).1.record = some (ensuredRec stocks n) := by
  unfold ensureStock ensuredRec
  rcases h : findStock stocks n with _ | s <;> simp

theorem ensureStock_find (stocks : List Stock) (n : String) :
    findStock (ensureStock stocks n).2 n = some (ensureStock stocks n).1 := by
  rcases h : findStock stocks n with _ | s
  · simp only [ensureStock, h]
    rw [findStock_append_none h]
    simp [findStock]
  · simp only [ensureStock, h]
    exact findStock_replaceFirst h (by simpa using findStock_name h)

theorem ensureStock_snd_mem (stocks : List Stock) (n : String) {x : Stock}
    (h : x ∈ (ensureStock stocks n).2) : x ∈ stocks ∨ x = (ensureStock stocks n).1 := by
  unfold ensureStock at h ⊢
  rcases hf : findStock stocks n with _ | s
  · rw [hf] at h
    simp only [] at h ⊢
    rcases List.mem_append.mp h with h1 | h2
    · exact Or.inl h1
    · simp at h2
      exact Or.inr h2
  · rw [hf] at h
    simp only [] at h ⊢
    exact mem_replaceFirst h

theorem ensuredRec_numericAt (stocks : List Stock) (n k : String) (h : k ∈ baseKeys) :
    numericAt (ensuredRec stocks n) k := by
  unfold ensuredRec
  rcases hf : findStock stocks n with _ | s
  · exact numericAt_base_of_mem h
  · exact ensureRecord_numericAt s.record k h

theorem recNum_of_get {r : Rec} {k : String} {q : ℚ}
    (h : Rec.get r k = some (some q)) : recNum r k = q := by
  unfold recNum
  rw [h]

theorem ensuredRec_today (stocks : List Stock) (n k : String) :
    recNum (repairKey (ensuredRec stocks n) k) k = priorToday stocks n k := by
  rw [recNum_repairKey_self]
  rcases hf : findStock stocks n with _ | s
  · simp only [ensuredRec, priorToday, hf]
    exact recNum_base k
  · cases hr : s.record with
    | none =>
        simp only [ensuredRec, priorToday, hf, hr, ensureRecord]
        exact recNum_base k
    | some r =>
        simp only [ensuredRec, priorToday, hf, hr]
        by_cases hk : k ∈ baseKeys
        · exact recNum_of_get (ensureRecord_get_mem r k hk)
        · exact recNum_eq_of_get_eq (ensureRecord_get_not_mem r k hk)

/-! ## `trade` / `handlePost` computation lemmas -/

theorem basePrice_mk (nm : String) (p : ℚ) (r : Option Rec) :
    basePrice ⟨nm, some p, r⟩ = p := rfl

theorem trade_get_spec (dayKey n : String) (amount : ℚ) (stocks : List Stock) :
    trade dayKey (some "get") n amount stocks =
      ⟨Resp.ok n (some (priorBase stocks n)) (repairKey (ensuredRec stocks n) dayKey),
       replaceFirst (ensureStock stocks n).2 n
         ⟨n, some (priorBase stocks n), some (repairKey (ensuredRec stocks n) dayKey)⟩,
       false⟩ := by
  simp only [trade, ensureStock_fst_name, ensureStock_fst_price, ensureStock_fst_record,
    Option.getD_some, if_true]

theorem trade_buy_spec (dayKey n : String) (amount : ℚ) (stocks : List Stock) :
    trade dayKey (some "buy") n amount stocks =
      ⟨Resp.ok n (some (priorBase stocks n + amount))
         (Rec.set (repairKey (ensuredRec stocks n) dayKey) dayKey
           (some (priorToday stocks n dayKey + amount))),
       replaceFirst
         (replaceFirst (ensureStock stocks n).2 n
           ⟨n, some (priorBase stocks n), some (repairKey (ensuredRec stocks n) dayKey)⟩) n
         ⟨n, some (priorBase stocks n + amount),
          some (Rec.set (repairKey (ensuredRec stocks n) dayKey) dayKey
            (some (priorToday stocks n dayKey + amount)))⟩,
       true⟩ := by
  have hv := ensuredRec_today stocks n dayKey
  simp only [trade, ensureStock_fst_name, ensureStock_fst_price, ensureStock_fst_record,
    Option.getD_some, basePrice_mk, hv,
    if_neg (by decide : ¬ ((some "buy" : Option String) = some "get")), if_true]

theorem trade_sell_spec (dayKey n : String) (amount : ℚ) (stocks : List Stock) :
    trade dayKey (some "sell") n amount stocks =
      ⟨Resp.ok n (some (max ((1 : ℚ)/100) (priorBase stocks n - amount)))
         (Rec.set (repairKey (ensuredRec stocks n) dayKey) dayKey
           (some (max 0 (priorToday stocks n dayKey - amount)))),
       replaceFirst
         (replaceFirst (ensureStock stocks n).2 n
           ⟨n, some (priorBase stocks n), some (repairKey (ensuredRec stocks n) dayKey)⟩) n
         ⟨n, some (max ((1 : ℚ)/100) (priorBase stocks n - amount)),
          some (Rec.set (repairKey (ensuredRec stocks n) dayKey) dayKey
            (some (max 0 (priorToday stocks n dayKey - amount))))⟩,
       true⟩ := by
  have hv := ensuredRec_today stocks n dayKey
  simp only [trade, ensureStock_fst_name, ensureStock_fst_price, ensureStock_fst_record,
    Option.getD_some, basePrice_mk, hv,
    if_neg (by decide : ¬ ((some "sell" : Option String) = some "get")),
    if_neg (by decide : ¬ ((some "sell" : Option String) = some "buy")), if_true]

theorem trade_bad_spec (dayKey : String) (action : Option String) (n : String)
    (amount : ℚ) (stocks : List Stock)
    (h1 : action ≠ some "get") (h2 : action ≠ some "buy") (h3 : action ≠ some "sell") :
    trade dayKey action n amount stocks =
      ⟨Resp.badAction,
       replaceFirst (ensureStock stocks n).2 n
         ⟨n, some (priorBase stocks n), some (repairKey (ensuredRec stocks n) dayKey)⟩,
       false⟩ := by
  simp only [trade, ensureStock_fst_name, ensureStock_fst_price, ensureStock_fst_record,
    Option.getD_some, if_neg h1, if_neg h2, if_neg h3]

theorem handlePost_valid (secret key : Option String) (hk : key = secret)
    (dayKey : String) (action : Option String) (n : String) (hn : n ≠ "")
    (amt : Option ℚ) (stocks : List Stock) :
    handlePost secret dayKey key action (some n) amt stocks =
      trade dayKey action n (amt.getD 0) stocks := by
  simp [handlePost, hk, hn]

theorem handlePost_badKey (secret key : Option String) (hk : key ≠ secret)
    (dayKey : String) (action name : Option String) (amt : Option ℚ)
    (stocks : List Stock) :
    handlePost secret dayKey key action name amt stocks =
      ⟨Resp.badKey, stocks, false⟩ := by
  simp [handlePost, hk]

/-! ## Price-floor invariant machinery -/

theorem priceOKb_iff (stocks : List Stock) :
    priceOKb stocks = true ↔ ∀ s ∈ stocks, ∃ p, s.price = some p ∧ (1 : ℚ)/100 ≤ p := by
  unfold priceOKb
  rw [List.all_eq_true]
  constructor
  · intro h s hs
    have h2 := h s hs
    rcases hp : s.price with _ | p
    · rw [hp] at h2
      simp at h2
    · rw [hp] at h2
      simp at h2
      exact ⟨p, rfl, by rw [one_div]; exact h2⟩
  · intro h s hs
    obtain ⟨p, hp, hle⟩ := h s hs
    rw [hp]
    simpa using hle

theorem priorBase_ge (stocks : List Stock) (n : String)
    (h : ∀ s ∈ stocks, ∃ p, s.price = some p ∧ (1 : ℚ)/100 ≤ p) :
    (1 : ℚ)/100 ≤ priorBase stocks n := by
  rcases hf : findStock stocks n with _ | s
  · simp only [priorBase, hf]
    norm_num
  · simp only [priorBase, hf]
    obtain ⟨p, hp, hle⟩ := h s (findStock_mem hf)
    unfold basePrice
    rw [hp]
    exact hle

theorem trade_preserves_priceOK (dayKey : String) (action : Option String)
    (n : String) (amount : ℚ) (stocks : List Stock)
    (h : ∀ s ∈ stocks, ∃ p, s.price = some p ∧ (1 : ℚ)/100 ≤ p)
    (hbuy : action = some "buy" → 0 ≤ amount) :
    ∀ s ∈ (trade dayKey action n amount stocks).stocks,
      ∃ p, s.price = some p ∧ (1 : ℚ)/100 ≤ p := by
  have hpb := priorBase_ge stocks n h
  have hes : ∀ x ∈ (ensureStock stocks n).2, ∃ p, x.price = some p ∧ (1 : ℚ)/100 ≤ p := by
    intro x hx
    rcases ensureStock_snd_mem stocks n hx with h1 | h1
    · exact h x h1
    · subst h1
      rw [ensureStock_fst_price]
      exact ⟨priorBase stocks n, rfl, hpb⟩
  have hmk : ∀ (r : Option Rec), ∃ p,
      (Stock.mk n (some (priorBase stocks n)) r).price = some p ∧ (1 : ℚ)/100 ≤ p :=
    fun r => ⟨priorBase stocks n, rfl, hpb⟩
  by_cases hg : action = some "get"
  · subst hg
    rw [trade_get_spec]
    intro s hs
    rcases mem_replaceFirst hs with h1 | h1
    · exact hes s h1
    · subst h1
      exact hmk _
  · by_cases hb : action = some "buy"
    · subst hb
      rw [trade_buy_spec]
      intro s hs
      rcases mem_replaceFirst hs with h1 | h1
      · rcases mem_replaceFirst h1 with h2 | h2
        · exact hes s h2
        · subst h2
          exact hmk _
      · subst h1
        refine ⟨priorBase stocks n + amount, rfl, ?_⟩
        have ha := hbuy rfl
        linarith
    · by_cases hsell : action = some "sell"
      · subst hsell
        rw [trade_sell_spec]
        intro s hs
        rcases mem_replaceFirst hs with h1 | h1
        · rcases mem_replaceFirst h1 with h2 | h2
          · exact hes s h2
          · subst h2
            exact hmk _
        · subst h1
          exact ⟨_, rfl, le_max_left _ _⟩
      · rw [trade_bad_spec dayKey action n amount stocks hg hb hsell]
        intro s hs
        rcases mem_replaceFirst hs with h1 | h1
        · exact hes s h1
        · subst h1
          exact hmk _

theorem handlePost_preserves_priceOK (secret : Option String) (dayKey : String)
    (key action name : Option String) (amt : Option ℚ) (stocks : List Stock)
    (h : priceOKb stocks = true)
    (hbuy : action = some "buy" → 0 ≤ amt.getD 0) :
    priceOKb (handlePost secret dayKey key action name amt stocks).stocks = true := by
  rw [priceOKb_iff] at h ⊢
  by_cases hk : key = secret
  · cases name with
    | none => simpa [handlePost, hk] using h
    | some n =>
        by_cases hn : n = ""
        · subst hn
          simpa [handlePost, hk] using h
        · rw [handlePost_valid secret key hk dayKey action n hn amt stocks]
          exact trade_preserves_priceOK dayKey action n (amt.getD 0) stocks h hbuy
  · rw [handlePost_badKey secret key hk dayKey action name amt stocks]
    exact h

theorem applyAll_preserves_priceOK (secret : Option String) (rs : List RootReq)
    (stocks : List Stock) (h : priceOKb stocks = true)
    (hbuy : ∀ r ∈ rs, r.action = some "buy" → 0 ≤ r.amountParsed.getD 0) :
    priceOKb (applyAll secret stocks rs) = true := by
  induction rs generalizing stocks with
  | nil => exact h
  | cons r rs ih =>
      exact ih _
        (handlePost_preserves_priceOK secret r.dayKey r.key r.action r.name r.amountParsed
          stocks h (hbuy r (List.mem_cons_self r rs)))
        (fun r' hr' => hbuy r' (List.mem_cons_of_mem r hr'))

theorem buyAmountsOK_iff (rs : List RootReq) :
    buyAmountsOK rs = true ↔
      ∀ r ∈ rs, r.action = some "buy" → 0 ≤ r.amountParsed.getD 0 := by
  unfold buyAmountsOK
  rw [List.all_eq_true]
  constructor
  · intro h r hr hb
    have h2 := h r hr
    rw [if_pos hb] at h2
    simpa using h2
  · intro h r hr
    by_cases hb : r.action = some "buy"
    · rw [if_pos hb]
      simpa using h r hr hb
    · rw [if_neg hb]

/-! ## Claim C5 -/

/-- Claim C5, corrected: whenever the `x-dealer-key` header differs from
the `DEALER_KEY` value as JS values (`none` = absent/unset), the response
is 403 `Bad key`, the ledger is unchanged and nothing is saved — in both
variants, regardless of the request body.  The original claim's "or
absent … regardless of whether the secret is configured" fails: with no
configured secret and no header both sides are `undefined`, the strict
comparison succeeds, and the request is processed. -/
theorem bad_key_rejected (secret key : Option String) (hk : key ≠ secret)
    (dayKey : String) (action name : Option String) (amt : Option ℚ)
    (stocks : List Stock) (laction : Option String) (lname : String)
    (lamt : Option ℚ) (ls : LLedger) :
    handlePost secret dayKey key action name amt stocks = ⟨Resp.badKey, stocks, false⟩
    ∧ Resp.badKey.status = 403
    ∧ handleLegacy secret key laction lname lamt ls = ⟨LResp.badKey, ls, false⟩ := by
  refine ⟨handlePost_badKey secret key hk dayKey action name amt stocks, rfl, ?_⟩
  simp [handleLegacy, hk]

/-- Witness for `bad_key_rejected` at a concrete wrong key. -/
theorem bad_key_rejected_witness :
    handlePost (some "k") "MON" (some "w") (some "buy") (some "X") (some 5) []
      = ⟨Resp.badKey, [], false⟩
    ∧ Resp.badKey.status = 403
    ∧ handleLegacy (some "k") (some "w") (some "buy") "X" (some 5) []
      = ⟨LResp.badKey, [], false⟩ :=
  bad_key_rejected (some "k") (some "w") (by decide) "MON" (some "buy") (some "X")
    (some 5) [] (some "buy") "X" (some 5) []

/-- Claim C5 counterexample: with no configured secret and an absent
header, a `buy` request is accepted and mutates the ledger instead of
being rejected with 403. -/
theorem missing_secret_header_accepted_cex :
    (handlePost none "MON" none (some "buy") (some "X") (some 5) []).resp
      = Resp.ok "X" (some 105)
          [("MON", some 5), ("TUES", some 0), ("WED", some 0), ("THURS", some 0),
           ("FRI", some 0), ("SAT", some 0), ("SUN", some 0)]
    ∧ (handlePost none "MON" none (some "buy") (some "X") (some 5) []).stocks ≠ []
    ∧ (handlePost none "MON" none (some "buy") (some "X") (some 5) []).resp
      ≠ Resp.badKey := by
  decide

/-! ## Claim C8 -/

/-- Claim C8, corrected: `load()` never fails the process.  In the
combined variant a missing/unparsable file and a non-array parse both
yield the empty ledger, and an array parse is taken as-is.  In the legacy
variant a missing/unparsable file leaves the previous (initially empty)
ledger in place, but a successfully parsed document of the wrong shape is
stored as-is — there is no shape check — rather than replaced by an empty
ledger as the original claim states. -/
theorem load_fallback_semantics :
    loadCombined none = []
    ∧ (∀ j : Json, (∀ xs, j ≠ Json.jarr xs) → loadCombined (some j) = [])
    ∧ (∀ xs, loadCombined (some (Json.jarr xs)) = xs)
    ∧ (∀ prev, loadLegacy prev none = prev) := by
  refine ⟨rfl, ?_, fun xs => rfl, fun prev => rfl⟩
  intro j hj
  cases j with
  | jarr xs => exact absurd rfl (hj xs)
  | jnull => rfl
  | jbool b => rfl
  | jnum q => rfl
  | jstr s => rfl
  | jobj kvs => rfl

/-- Witness for `load_fallback_semantics` at a concrete non-array parse. -/
theorem load_fallback_semantics_witness :
    loadCombined (some (Json.jnum 5)) = [] :=
  load_fallback_semantics.2.1 (Json.jnum 5) (fun xs h => Json.noConfusion h)

/-- Claim C8 counterexample: legacy `load()` stores a successfully parsed
non-object document (here the number 5) as the ledger instead of falling
back to the empty ledger. -/
theorem legacy_load_wrong_shape_cex :
    loadLegacy (Json.jobj []) (some (Json.jnum 5)) = Json.jnum 5
    ∧ Json.jnum 5 ≠ Json.jobj [] :=
  ⟨rfl, fun h => Json.noConfusion h⟩

/-! ## Claim C9 -/

/-- Claim C9, corrected: when the webhook URL is configured, a `/report`
body missing `clientName` or `reportedPlayerName` yields 400
`Missing clientName or reportedPlayerName` and no webhook delivery is
attempted.  The original claim's "irrespective of whether the webhook URL
is configured" fails: the configuration check runs first, so with no URL
the response is 500 `Webhook not configured`, not 400. -/
theorem report_missing_fields_rejected (url : Option String)
    (hu : falsyStr url = false) (b : ReportBody)
    (hm : falsyStr b.clientName = true ∨ falsyStr b.reportedPlayerName = true)
    (fetchOk : Bool) (fetchStatus : Nat) :
    handleReport url b fetchOk fetchStatus = ⟨ReportResp.missingFields, []⟩
    ∧ ReportResp.missingFields.status = 400 := by
  constructor
  · unfold handleReport
    rw [if_neg (by simp [hu]), if_pos (by rcases hm with h | h <;> simp [h])]
  · rfl

/-- Witness for `report_missing_fields_rejected` with an empty body and a
configured URL. -/
theorem report_missing_fields_witness :
    handleReport (some "https://w") ⟨none, none, none, none, none⟩ true 200
      = ⟨ReportResp.missingFields, []⟩
    ∧ ReportResp.missingFields.status = 400 :=
  report_missing_fields_rejected (some "https://w") (by decide)
    ⟨none, none, none, none, none⟩ (Or.inl (by decide)) true 200

/-- Claim C9 counterexample: with the webhook URL unset, an empty
`/report` body gets 500 `Webhook not configured`, not the claimed 400. -/
theorem report_unconfigured_cex :
    handleReport none ⟨none, none, none, none, none⟩ true 200
      = ⟨ReportResp.notConfigured, []⟩
    ∧ ReportResp.notConfigured.status = 500
    ∧ ReportResp.notConfigured ≠ ReportResp.missingFields := by
  decide

/-! ## Claim C10 -/

/-- Claim C10, confirmed: handling `POST /report` leaves the stocks
ledger untouched, never writes the data file, never triggers the git
mirror, and performs at most one webhook POST. -/
theorem report_frame_property (secret url : Option String) (dayKey : String)
    (st : ServerState) (b : ReportBody) (fetchOk : Bool) (fetchStatus : Nat) :
    (serverStep secret url dayKey st (Request.postReport b fetchOk fetchStatus)).state = st
    ∧ (serverStep secret url dayKey st (Request.postReport b fetchOk fetchStatus)).saved = false
    ∧ (serverStep secret url dayKey st (Request.postReport b fetchOk fetchStatus)).gitPushed = false
    ∧ (serverStep secret url dayKey st
        (Request.postReport b fetchOk fetchStatus)).webhookCalls.length ≤ 1 := by
  refine ⟨rfl, rfl, rfl, ?_⟩
  show (handleReport url b fetchOk fetchStatus).webhookCalls.length ≤ 1
  unfold handleReport
  split_ifs <;> simp

/-! ## Claim C3 -/

/-- Claim C3, corrected: starting from the empty ledger, if every `buy`
request in the history carries a non-negative parsed amount, then in
every reachable ledger state each stock's price is numeric and at least
0.01 — with `get` requests, `sell` requests of any magnitude and sign,
arbitrary names, bad keys and bad actions all allowed.  The original
claim, which also allows negative `buy` amounts, is false: the `buy` case
adds the signed amount without any clamp, so one `buy` of −200 drives a
fresh stock's price to −100. -/
theorem price_floor_invariant (secret : Option String) (rs : List RootReq)
    (h : buyAmountsOK rs = true) :
    priceOKb (applyAll secret [] rs) = true :=
  applyAll_preserves_priceOK secret rs [] (by decide) ((buyAmountsOK_iff rs).mp h)

/-- Witness for `price_floor_invariant` on a concrete request history
(a buy, an oversized sell, and a get). -/
theorem price_floor_invariant_witness :
    buyAmountsOK
        [⟨"MON", some "k", some "buy", some "A", some 5⟩,
         ⟨"MON", some "k", some "sell", some "A", some 200⟩,
         ⟨"TUES", some "k", some "get", some "B", none⟩] = true
    ∧ priceOKb (applyAll (some "k") []
        [⟨"MON", some "k", some "buy", some "A", some 5⟩,
         ⟨"MON", some "k", some "sell", some "A", some 200⟩,
         ⟨"TUES", some "k", some "get", some "B", none⟩]) = true :=
  ⟨by decide,
   price_floor_invariant (some "k")
     [⟨"MON", some "k", some "buy", some "A", some 5⟩,
      ⟨"MON", some "k", some "sell", some "A", some 200⟩,
      ⟨"TUES", some "k", some "get", some "B", none⟩] (by decide)⟩

/-- Claim C3 counterexample: a single authorised `buy` with amount −200 on
a fresh ledger leaves stock `A` with price −100, which is negative and
below 0.01. -/
theorem negative_buy_breaks_floor_cex :
    findStock (handlePost (some "k") "MON" (some "k") (some "buy") (some "A")
        (some (-200)) []).stocks "A"
      = some ⟨"A", some (-100),
          some [("MON", some (-200)), ("TUES", some 0), ("WED", some 0), ("THURS", some 0),
                ("FRI", some 0), ("SAT", some 0), ("SUN", some 0)]⟩
    ∧ ((-100 : ℚ) < 0)
    ∧ priceOKb (handlePost (some "k") "MON" (some "k") (some "buy") (some "A")
        (some (-200)) []).stocks = false := by
  decide

/-! ## Claim C4 -/

/-- Claim C4, corrected: an authorised `get` for a name not in the ledger
creates the stock with price 100 and an all-zero weekly record in the
in-memory ledger, where it is visible to any later `GET /stocks` (that
endpoint serves the in-memory array); in the legacy variant the creation
is also written to the data file (`save()` is called).  In the combined
variant, however, the `get` case returns without calling `save()`, so the
creation is NOT persisted to the data file, contrary to the original
claim. -/
theorem get_creates_default_stock (secret key : Option String) (hk : key = secret)
    (dayKey : String) (hd : dayKey ∈ DAY_KEYS) (n : String) (hn : n ≠ "")
    (amt : Option ℚ) (stocks : List Stock) (hf : findStock stocks n = none)
    (ls : LLedger) (lname : String) (hlf : lookupL ls lname = none) (lamt : Option ℚ) :
    handlePost secret dayKey key (some "get") (some n) amt stocks
      = ⟨Resp.ok n (some 100) baseRecord, stocks ++ [⟨n, some 100, some baseRecord⟩], false⟩
    ∧ findStock (handlePost secret dayKey key (some "get") (some n) amt stocks).stocks n
      = some ⟨n, some 100, some baseRecord⟩
    ∧ handleLegacy secret key (some "get") lname lamt ls
      = ⟨LResp.price 100, setL ls lname 100, true⟩
    ∧ lookupL (setL ls lname 100) lname = some 100 := by
  have hpb : priorBase stocks n = 100 := by simp only [priorBase, hf]
  have her : ensuredRec stocks n = baseRecord := by simp only [ensuredRec, hf]
  have hrk : repairKey baseRecord dayKey = baseRecord :=
    repairKey_id baseRecord dayKey (numericAt_base_of_mem (day_mem_base hd))
  have hmain : handlePost secret dayKey key (some "get") (some n) amt stocks
      = ⟨Resp.ok n (some 100) baseRecord,
         stocks ++ [⟨n, some 100, some baseRecord⟩], false⟩ := by
    rw [handlePost_valid secret key hk dayKey (some "get") n hn amt stocks,
      trade_get_spec, hpb, her, hrk]
    have hes : (ensureStock stocks n).2 = stocks ++ [⟨n, some 100, some baseRecord⟩] := by
      simp only [ensureStock, hf]
    rw [hes, replaceFirst_append_of_none hf]
    simp [replaceFirst]
  refine ⟨hmain, ?_, ?_, lookupL_setL_self ls lname 100⟩
  · rw [hmain]
    simp only []
    rw [findStock_append_none hf]
    simp [findStock]
  · simp [handleLegacy, hk, hlf]

/-- Witness for `get_creates_default_stock` on fresh ledgers. -/
theorem get_creates_default_stock_witness :
    handlePost (some "k") "MON" (some "k") (some "get") (some "A") none []
      = ⟨Resp.ok "A" (some 100) baseRecord, [] ++ [⟨"A", some 100, some baseRecord⟩], false⟩
    ∧ findStock (handlePost (some "k") "MON" (some "k") (some "get") (some "A") none []).stocks "A"
      = some ⟨"A", some 100, some baseRecord⟩
    ∧ handleLegacy (some "k") (some "k") (some "get") "A" none []
      = ⟨LResp.price 100, setL [] "A" 100, true⟩
    ∧ lookupL (setL [] "A" 100) "A" = some 100 :=
  get_creates_default_stock (some "k") (some "k") rfl "MON" (by decide) "A" (by decide)
    none [] rfl [] "A" rfl none

/-- Claim C4 counterexample: in the combined variant the `get` case does
not call `save()` — the stock is created in memory but nothing is
persisted to the data file. -/
theorem get_creation_unsaved_cex :
    (handlePost (some "k") "MON" (some "k") (some "get") (some "A") none []).saved = false
    ∧ (handlePost (some "k") "MON" (some "k") (some "get") (some "A") none []).stocks
      = [⟨"A", some 100, some baseRecord⟩] := by
  decide

/-! ## Claim C1 -/

/-- Claim C1, corrected: for every authorised `sell` with a valid name in
the combined variant, the response price is
`max(0.01, priorBase − amount)` where `priorBase` is the stored numeric
price, or 100 when the stock is new or its price non-numeric;
`record[today]` becomes `max(0, priorToday − amount)` where `priorToday`
is the stored numeric `record[today]`, or 0 when missing/non-numeric (the
pre-switch repair); the stored stock agrees with the response; and the
price never goes below 0.01 for any amount.  In the legacy variant the
price is `max(0.01, base − amount)` where the base is the stored price
only when it is nonzero — a stored price of 0 is falsy, so
`(stocks[name] || 100)` takes 100 there, contrary to the original claim's
"prior price taken as 100 [only] if the stock is new or its price is
non-numeric". -/
theorem sell_semantics (secret key : Option String) (hk : key = secret)
    (dayKey n : String) (hn : n ≠ "") (amt : Option ℚ) (stocks : List Stock)
    (ls : LLedger) (lname : String) (lamt : Option ℚ) :
    ((handlePost secret dayKey key (some "sell") (some n) amt stocks).resp
        = Resp.ok n (some (max ((1 : ℚ)/100) (priorBase stocks n - amt.getD 0)))
            (Rec.set (repairKey (ensuredRec stocks n) dayKey) dayKey
              (some (max 0 (priorToday stocks n dayKey - amt.getD 0))))
      ∧ Rec.get (Rec.set (repairKey (ensuredRec stocks n) dayKey) dayKey
            (some (max 0 (priorToday stocks n dayKey - amt.getD 0)))) dayKey
          = some (some (max 0 (priorToday stocks n dayKey - amt.getD 0)))
      ∧ findStock (handlePost secret dayKey key (some "sell") (some n) amt stocks).stocks n
          = some ⟨n, some (max ((1 : ℚ)/100) (priorBase stocks n - amt.getD 0)),
              some (Rec.set (repairKey (ensuredRec stocks n) dayKey) dayKey
                (some (max 0 (priorToday stocks n dayKey - amt.getD 0))))⟩
      ∧ (1 : ℚ)/100 ≤ max ((1 : ℚ)/100) (priorBase stocks n - amt.getD 0))
    ∧ (handleLegacy secret key (some "sell") lname lamt ls).resp
        = LResp.price (max ((1 : ℚ)/100) (legacyBase ls lname - lamt.getD 0)) := by
  rw [handlePost_valid secret key hk dayKey (some "sell") n hn amt stocks, trade_sell_spec]
  refine ⟨⟨rfl, Rec.get_set_self _ _ _, ?_, le_max_left _ _⟩, ?_⟩
  · exact findStock_replaceFirst
      (findStock_replaceFirst (ensureStock_find stocks n) rfl) rfl
  · simp [handleLegacy, hk]

/-- Witness for `sell_semantics`: a sell of 5 on a fresh combined ledger
and a sell of 7 on a legacy ledger holding price 50. -/
theorem sell_semantics_witness :
    (handlePost (some "k") "MON" (some "k") (some "sell") (some "A") (some 5) []).resp
      = Resp.ok "A" (some (max ((1 : ℚ)/100) (priorBase [] "A" - (some (5 : ℚ)).getD 0)))
          (Rec.set (repairKey (ensuredRec [] "A") "MON") "MON"
            (some (max 0 (priorToday [] "A" "MON" - (some (5 : ℚ)).getD 0))))
    ∧ (handleLegacy (some "k") (some "k") (some "sell") "A" (some 7) [("A", 50)]).resp
      = LResp.price (max ((1 : ℚ)/100) (legacyBase [("A", 50)] "A" - (some (7 : ℚ)).getD 0)) :=
  ⟨(sell_semantics (some "k") (some "k") rfl "MON" "A" (by decide) (some 5) []
      [("A", 50)] "A" (some 7)).1.1,
   (sell_semantics (some "k") (some "k") rfl "MON" "A" (by decide) (some 5) []
      [("A", 50)] "A" (some 7)).2⟩

/-- Claim C1 counterexample: in the legacy variant a stored price of 0
(reachable by an authorised `buy` of −100 on a fresh ledger) is falsy, so
a `sell` of 5 yields `max(0.01, 100 − 5) = 95` instead of the claimed
`max(0.01, 0 − 5) = 0.01`. -/
theorem sell_legacy_zero_price_cex :
    (handleLegacy (some "k") (some "k") (some "buy") "X" (some (-100)) []).stocks
      = [("X", 0)]
    ∧ (handleLegacy (some "k") (some "k") (some "sell") "X" (some 5) [("X", 0)]).resp
      = LResp.price 95
    ∧ (95 : ℚ) ≠ max ((1 : ℚ)/100) (0 - 5) := by
  decide

/-! ## Claim C2 -/

/-- Claim C2, corrected: for every authorised `buy` with a valid name in
the combined variant, the response price is `priorBase + amount`, where
`priorBase` is the stored numeric price, or 100 when the stock is new or
its stored price non-numeric, and `record[today]` increases by the same
amount (from its stored numeric value, or from 0 when it was
missing/non-numeric); the stored stock agrees with the response.  In the
legacy variant the price becomes `base + amount` where the base is the
stored price only when it is nonzero — a stored price of 0 is falsy, so
`(stocks[name] || 100)` takes 100 there, contrary to the original claim's
"prior price (or 100 if the stock did not exist)". -/
theorem buy_semantics (secret key : Option String) (hk : key = secret)
    (dayKey n : String) (hn : n ≠ "") (amt : Option ℚ) (stocks : List Stock)
    (ls : LLedger) (lname : String) (lamt : Option ℚ) :
    ((handlePost secret dayKey key (some "buy") (some n) amt stocks).resp
        = Resp.ok n (some (priorBase stocks n + amt.getD 0))
            (Rec.set (repairKey (ensuredRec stocks n) dayKey) dayKey
              (some (priorToday stocks n dayKey + amt.getD 0)))
      ∧ Rec.get (Rec.set (repairKey (ensuredRec stocks n) dayKey) dayKey
            (some (priorToday stocks n dayKey + amt.getD 0))) dayKey
          = some (some (priorToday stocks n dayKey + amt.getD 0))
      ∧ findStock (handlePost secret dayKey key (some "buy") (some n) amt stocks).stocks n
          = some ⟨n, some (priorBase stocks n + amt.getD 0),
              some (Rec.set (repairKey (ensuredRec stocks n) dayKey) dayKey
                (some (priorToday stocks n dayKey + amt.getD 0)))⟩)
    ∧ (handleLegacy secret key (some "buy") lname lamt ls).resp
        = LResp.price (legacyBase ls lname + lamt.getD 0) := by
  rw [handlePost_valid secret key hk dayKey (some "buy") n hn amt stocks, trade_buy_spec]
  refine ⟨⟨rfl, Rec.get_set_self _ _ _, ?_⟩, ?_⟩
  · exact findStock_replaceFirst
      (findStock_replaceFirst (ensureStock_find stocks n) rfl) rfl
  · simp [handleLegacy, hk]

/-- Witness for `buy_semantics`: a buy of 25 on a fresh combined ledger
and a buy of 7 on a legacy ledger holding price 50. -/
theorem buy_semantics_witness :
    (handlePost (some "k") "MON" (some "k") (some "buy") (some "TEST") (some 25) []).resp
      = Resp.ok "TEST" (some (priorBase [] "TEST" + (some (25 : ℚ)).getD 0))
          (Rec.set (repairKey (ensuredRec [] "TEST") "MON") "MON"
            (some (priorToday [] "TEST" "MON" + (some (25 : ℚ)).getD 0)))
    ∧ (handleLegacy (some "k") (some "k") (some "buy") "TEST" (some 7) [("TEST", 50)]).resp
      = LResp.price (legacyBase [("TEST", 50)] "TEST" + (some (7 : ℚ)).getD 0) :=
  ⟨(buy_semantics (some "k") (some "k") rfl "MON" "TEST" (by decide) (some 25) []
      [("TEST", 50)] "TEST" (some 7)).1.1,
   (buy_semantics (some "k") (some "k") rfl "MON" "TEST" (by decide) (some 25) []
      [("TEST", 50)] "TEST" (some 7)).2⟩

/-- Claim C2 counterexample: in the legacy variant a stored price of 0
(reachable by an authorised `buy` of −100 on a fresh ledger) is falsy, so
a `buy` of 5 yields `100 + 5 = 105` instead of the claimed `0 + 5 = 5`. -/
theorem buy_legacy_zero_price_cex :
    (handleLegacy (some "k") (some "k") (some "buy") "X" (some (-100)) []).stocks
      = [("X", 0)]
    ∧ (handleLegacy (some "k") (some "k") (some "buy") "X" (some 5) [("X", 0)]).resp
      = LResp.price 105
    ∧ (105 : ℚ) ≠ 0 + 5 := by
  decide

/-! ## Claim C7 -/

/-- Claim C7, corrected: after any authorised get/buy/sell access with a
valid name, the accessed stock's record is an object whose 7 recognized
weekday keys all map to numbers (missing or non-numeric weekday entries
having been repaired to 0 during the access).  The original claim's
"exactly … and no other keys are present" fails: `ensureRecord` only
repairs the 7 base keys and never deletes anything, so extra keys already
present in a loaded record survive the access. -/
theorem record_keys_numeric_after_access (secret key : Option String) (hk : key = secret)
    (dayKey n : String) (hn : n ≠ "") (action : Option String)
    (ha : action = some "get" ∨ action = some "buy" ∨ action = some "sell")
    (amt : Option ℚ) (stocks : List Stock) :
    ∃ s2, findStock (handlePost secret dayKey key action (some n) amt stocks).stocks n
        = some s2
      ∧ ∃ r, s2.record = some r ∧ wellFormedRecB r = true := by
  rw [handlePost_valid secret key hk dayKey action n hn amt stocks]
  have h1 : ∀ k ∈ baseKeys, numericAt (repairKey (ensuredRec stocks n) dayKey) k :=
    fun k hkk => numericAt_repairKey _ dayKey k (ensuredRec_numericAt stocks n k hkk)
  rcases ha with rfl | rfl | rfl
  · rw [trade_get_spec]
    exact ⟨_, findStock_replaceFirst (ensureStock_find stocks n) rfl,
      _, rfl, (wellFormedRecB_iff _).mpr h1⟩
  · rw [trade_buy_spec]
    exact ⟨_,
      findStock_replaceFirst (findStock_replaceFirst (ensureStock_find stocks n) rfl) rfl,
      _, rfl, (wellFormedRecB_iff _).mpr (fun k hkk => numericAt_set _ dayKey k _ (h1 k hkk))⟩
  · rw [trade_sell_spec]
    exact ⟨_,
      findStock_replaceFirst (findStock_replaceFirst (ensureStock_find stocks n) rfl) rfl,
      _, rfl, (wellFormedRecB_iff _).mpr (fun k hkk => numericAt_set _ dayKey k _ (h1 k hkk))⟩

/-- Witness for `record_keys_numeric_after_access` on a fresh get. -/
theorem record_keys_numeric_witness :
    ∃ s2, findStock (handlePost (some "k") "MON" (some "k") (some "get") (some "A")
        none []).stocks "A" = some s2
      ∧ ∃ r, s2.record = some r ∧ wellFormedRecB r = true :=
  record_keys_numeric_after_access (some "k") (some "k") rfl "MON" "A" (by decide)
    (some "get") (Or.inl rfl) none []

/-- Claim C7 counterexample: a record carrying the unknown key `XTRA`
(as a loaded data file may) keeps that key across a `get` access, so the
record does not contain *exactly* the 7 weekday keys. -/
theorem record_extra_key_cex :
    (handlePost (some "k") "MON" (some "k") (some "get") (some "X") none
        [⟨"X", some 100, some (("XTRA", some 1) :: baseRecord)⟩]).resp
      = Resp.ok "X" (some 100) (("XTRA", some 1) :: baseRecord)
    ∧ Rec.get (("XTRA", some 1) :: baseRecord) "XTRA" = some (some 1)
    ∧ "XTRA" ∉ baseKeys := by
  decide

/-! ## Claim C6 -/

/-- Claim C6, corrected: a `buy` or `sell` whose amount string does not
parse has its amount coerced to 0 and returns 200; provided the stock
already exists with a numeric price of at least 0.01, a well-formed
record, and a non-negative `record[today]` — as is the case for every
stock the service itself has built — the price and record (and the whole
ledger) are unchanged; likewise in the legacy variant when the stored
price is at least 0.01.  The original unrestricted claim fails: a `sell`
with unparsable amount still applies the `max(0.01, ·)` clamp, so on a
stock whose price sits below 0.01 (reachable via a negative `buy`) the
"no-op" request changes the price to 0.01. -/
theorem unparsable_amount_noop (secret key : Option String) (hk : key = secret)
    (dayKey n : String) (hd : dayKey ∈ DAY_KEYS) (hn : n ≠ "")
    (action : Option String) (ha : action = some "buy" ∨ action = some "sell")
    (stocks : List Stock) (sn : String) (p : ℚ) (r : Rec)
    (hf : findStock stocks n = some ⟨sn, some p, some r⟩)
    (hpge : (1 : ℚ)/100 ≤ p) (hwf : wellFormedRecB r = true)
    (hv : 0 ≤ recNum r dayKey)
    (ls : LLedger) (lname : String) (q : ℚ) (hlf : lookupL ls lname = some q)
    (hq : (1 : ℚ)/100 ≤ q) :
    (handlePost secret dayKey key action (some n) none stocks
        = ⟨Resp.ok n (some p) r, stocks, true⟩
      ∧ (Resp.ok n (some p) r).status = 200)
    ∧ handleLegacy secret key action lname none ls = ⟨LResp.price q, ls, true⟩ := by
  have hsn : sn = n := findStock_name hf
  subst hsn
  have hwf' : ∀ k ∈ baseKeys, numericAt r k := (wellFormedRecB_iff r).mp hwf
  have hday : dayKey ∈ baseKeys := day_mem_base hd
  have hnum : numericAt r dayKey := hwf' dayKey hday
  have her : ensuredRec stocks sn = r := by
    simp only [ensuredRec, hf]
    exact ensureRecord_id r hwf'
  have hrk : repairKey (ensuredRec stocks sn) dayKey = r := by
    rw [her]
    exact repairKey_id r dayKey hnum
  have hpb : priorBase stocks sn = p := by
    simp only [priorBase, hf, basePrice_mk]
  have hpt : priorToday stocks sn dayKey = recNum r dayKey := by
    simp only [priorToday, hf]
  have hset : Rec.set r dayKey (some (recNum r dayKey)) = r :=
    Rec.set_id r dayKey (some (recNum r dayKey)) (get_eq_recNum hnum)
  have hes2 : (ensureStock stocks sn).2 = stocks := by
    simp only [ensureStock, hf, basePrice_mk, ensureRecord_id r hwf']
    exact replaceFirst_self hf
  have hrs : replaceFirst stocks sn (⟨sn, some p, some r⟩ : Stock) = stocks :=
    replaceFirst_self hf
  have hq0 : q ≠ 0 := by
    intro h0
    rw [h0] at hq
    norm_num at hq
  have hlb : legacyBase ls lname = q := by
    simp only [legacyBase, hlf, if_neg hq0]
  have hsetL : setL ls lname q = ls := setL_id ls lname q hlf
  rcases ha with rfl | rfl
  · refine ⟨⟨?_, rfl⟩, ?_⟩
    · rw [handlePost_valid secret key hk dayKey (some "buy") sn hn none stocks,
        trade_buy_spec]
      simp only [hrk, hpb, hpt, Option.getD_none, add_zero, hset, hes2, hrs]
    · simp [handleLegacy, hk, hlb, hsetL]
  · refine ⟨⟨?_, rfl⟩, ?_⟩
    · rw [handlePost_valid secret key hk dayKey (some "sell") sn hn none stocks,
        trade_sell_spec]
      have hmaxp : max ((1 : ℚ)/100) (p - 0) = p := by
        rw [sub_zero]
        exact max_eq_right hpge
      have hmaxv : max (0 : ℚ) (recNum r dayKey - 0) = recNum r dayKey := by
        rw [sub_zero]
        exact max_eq_right hv
      simp only [hrk, hpb, hpt, Option.getD_none, hmaxp, hmaxv, hset, hes2, hrs]
    · have hmaxq : max ((1 : ℚ)/100) (q - 0) = q := by
        rw [sub_zero]
        exact max_eq_right hq
      simp [handleLegacy, hk, hlb, hmaxq, hsetL]
      have hle : (100⁻¹ : ℚ) ≤ q := by
        rw [← one_div]
        exact hq
      exact ⟨hle, by rw [sup_eq_right.mpr hle]; exact hsetL⟩

/-- Witness for `unparsable_amount_noop`: a `buy` with unparsable amount
on a one-stock ledger at price 100 with the default record. -/
theorem unparsable_amount_noop_witness :
    (handlePost (some "k") "MON" (some "k") (some "buy") (some "X") none
        [⟨"X", some 100, some baseRecord⟩]
      = ⟨Resp.ok "X" (some 100) baseRecord, [⟨"X", some 100, some baseRecord⟩], true⟩
      ∧ (Resp.ok "X" (some (100 : ℚ)) baseRecord).status = 200)
    ∧ handleLegacy (some "k") (some "k") (some "buy") "X" none [("X", 100)]
      = ⟨LResp.price 100, [("X", 100)], true⟩ :=
  unparsable_amount_noop (some "k") (some "k") rfl "MON" "X" (by decide) (by decide)
    (some "buy") (Or.inl rfl) [⟨"X", some 100, some baseRecord⟩] "X" 100 baseRecord
    rfl (by norm_num) (by decide) (by decide) [("X", 100)] "X" 100 rfl (by norm_num)

/-- Claim C6 counterexample: after an authorised `buy` of −105 on a fresh
ledger the price of `X` is −5; a subsequent `sell` with unparsable amount
(amount coerced to 0) then returns price 0.01 — the clamp still fires, so
the price is *not* unchanged. -/
theorem unparsable_amount_changes_price_cex :
    (handlePost (some "k") "MON" (some "k") (some "buy") (some "X") (some (-105)) []).stocks
      = [⟨"X", some (-5), some [("MON", some (-105)), ("TUES", some 0), ("WED", some 0),
          ("THURS", some 0), ("FRI", some 0), ("SAT", some 0), ("SUN", some 0)]⟩]
    ∧ (handlePost (some "k") "MON" (some "k") (some "sell") (some "X") none
        [⟨"X", some (-5), some [("MON", some (-105)), ("TUES", some 0), ("WED", some 0),
          ("THURS", some 0), ("FRI", some 0), ("SAT", some 0), ("SUN", some 0)]⟩]).resp
      = Resp.ok "X" (some ((1 : ℚ)/100)) baseRecord
    ∧ ((1 : ℚ)/100 ≠ -5) := by
  decide

end AV
